import Mathlib

set_option maxRecDepth 8000

/-!
Verification of the Structure Analyzer of `analyze_checkpoints.py`
(`get_tensor_info`, lines 23-36, and `analyze_nested_dict`, lines 38-69).

A loaded checkpoint is an in-memory Python object: a nested `dict` from
string keys to values, where a value is a nested dict, a torch tensor, or
an opaque object.  We embed exactly the observations the analyzer makes of
such an object:

* a tensor is observed through `tensor.shape` (list of dimension sizes),
  `str(tensor.dtype)`, `tensor.element_size()` (per-element byte width),
  `tensor.numel()` (product of the dimension sizes) and `str(tensor.device)`;
* an opaque leaf is observed through `type(value).__name__`,
  `sys.getsizeof(value)` (an opaque platform-provided byte count, carried
  as a field), `str(value)` and `callable(value)`.
-/

/-- A Python value as seen by the analyzer: a nested string-keyed `dict`
(entries in insertion order), a torch tensor, or an opaque leaf object. -/
inductive Value where
  | dict (entries : List (String × Value))
  | tensor (shape : List Nat) (dtype : String) (elemSize : Nat) (device : String)
  | other (typeName : String) (sizeofBytes : Nat) (strRepr : String) (isCallable : Bool)
deriving Repr

/-- `tensor.numel()`: the total element count, the product of the dimension
sizes (`1` for a zero-dimensional tensor). -/
def numel (shape : List Nat) : Nat :=
  shape.foldl (fun a b => a * b) 1

/-- The result of `get_tensor_info` on a tensor (lines 25-31 of
`analyze_checkpoints.py`): shape, dtype, `size_bytes` and device. -/
structure TensorInfo where
  shape : List Nat
  dtype : String
  size_bytes : Nat
  device : String
deriving Repr, DecidableEq

/-- `get_tensor_info` (lines 23-31), on the `torch.is_tensor` branch, the
only branch `analyze_nested_dict` reaches: `size_bytes` is
`tensor.numel() * tensor.element_size()`. -/
def get_tensor_info (shape : List Nat) (dtype : String) (elemSize : Nat)
    (device : String) : TensorInfo :=
  { shape := shape
    dtype := dtype
    size_bytes := numel shape * elemSize
    device := device }

/-- One output record of `analyze_nested_dict`: either the tensor-shaped
dict of lines 53-60 or the fallback dict of lines 62-67. -/
inductive Descriptor where
  | tensorDesc (key : String) (shape : List Nat) (dtype : String)
      (size_bytes : Nat) (device : String)
  | otherDesc (key : String) (typeName : String) (size_bytes : Nat)
      (value_preview : String)
deriving Repr, DecidableEq

/-- The `key` field every descriptor carries. -/
def Descriptor.key : Descriptor → String
  | .tensorDesc k _ _ _ _ => k
  | .otherDesc k _ _ _ => k

/-- Line 47: `full_key = f"\x7bprefix\x7d.\x7bkey\x7d" if prefix else key` —
the dotted join, with the dot omitted when the running path is empty. -/
def full_key (pfx key : String) : String :=
  if pfx ≠ "" then pfx ++ "." ++ key else key

mutual

/-- `analyze_nested_dict` (lines 38-69): depth-guarded recursive walk of a
nested dict, one descriptor per leaf. -/
def analyze_nested_dict (data : Value) (pfx : String)
    (max_depth : Nat) (current_depth : Nat) : List Descriptor :=
  if current_depth > max_depth then []
  else
    match data with
    | .dict entries => analyzeEntries entries pfx max_depth current_depth
    | _ => []

/-- The `for key, value in data.items()` loop of lines 46-67: each entry
contributes a recursion (dict), one tensor descriptor, or one fallback
descriptor, concatenated in iteration order. -/
def analyzeEntries (entries : List (String × Value)) (pfx : String)
    (max_depth : Nat) (current_depth : Nat) : List Descriptor :=
  match entries with
  | [] => []
  | (key, value) :: rest =>
    (match value with
     | .dict es =>
         analyze_nested_dict (.dict es) (full_key pfx key) max_depth
           (current_depth + 1)
     | .tensor shape dtype elemSize device =>
         let ti := get_tensor_info shape dtype elemSize device
         [.tensorDesc (full_key pfx key) ti.shape ti.dtype ti.size_bytes
           ti.device]
     | .other typeName sizeofBytes strRepr isCallable =>
         [.otherDesc (full_key pfx key) typeName sizeofBytes
           (if isCallable then "callable" else strRepr.take 100)])
    ++ analyzeEntries rest pfx max_depth current_depth

end

/-- The spec glossary's leaf test: a leaf is any non-dictionary value. -/
def isLeafB : Value → Bool
  | .dict _ => false
  | _ => true

mutual

/-- All leaf values occurring anywhere in a value tree, in traversal order,
with no depth bound. -/
def leafValues : Value → List Value
  | .dict entries => leafValuesEntries entries
  | .tensor shape dtype elemSize device => [.tensor shape dtype elemSize device]
  | .other typeName sizeofBytes strRepr isCallable =>
      [.other typeName sizeofBytes strRepr isCallable]

/-- Leaf values under a list of dict entries, in order. -/
def leafValuesEntries : List (String × Value) → List Value
  | [] => []
  | (_, v) :: rest => leafValues v ++ leafValuesEntries rest

end

mutual

/-- Follows the spec's words (data-model invariant and traversal contract):
the leaves reachable within the traversal depth bound, listed depth-first
in each mapping's natural key order, each paired with its dotted path. -/
def specReachableLeaves (data : Value) (pfx : String)
    (max_depth : Nat) (current_depth : Nat) : List (String × Value) :=
  if current_depth > max_depth then []
  else
    match data with
    | .dict entries => specLeavesOfEntries entries pfx max_depth current_depth
    | _ => []

/-- Follows the spec's words: the reachable leaves contributed by a list of
dict entries, in entry order. -/
def specLeavesOfEntries (entries : List (String × Value)) (pfx : String)
    (max_depth : Nat) (current_depth : Nat) : List (String × Value) :=
  match entries with
  | [] => []
  | (key, value) :: rest =>
    (match value with
     | .dict es =>
         specReachableLeaves (.dict es) (full_key pfx key) max_depth
           (current_depth + 1)
     | .tensor shape dtype elemSize device =>
         [(full_key pfx key, .tensor shape dtype elemSize device)]
     | .other typeName sizeofBytes strRepr isCallable =>
         [(full_key pfx key, .other typeName sizeofBytes strRepr isCallable)])
    ++ specLeavesOfEntries rest pfx max_depth current_depth

end

/-- The descriptor the analyzer builds for one leaf (the dict branch never
reaches this function; its value there is irrelevant and arbitrary). -/
def leafDesc : String × Value → Descriptor
  | (k, .tensor shape dtype elemSize device) =>
      .tensorDesc k shape dtype (numel shape * elemSize) device
  | (k, .other typeName sizeofBytes strRepr isCallable) =>
      .otherDesc k typeName sizeofBytes
        (if isCallable then "callable" else strRepr.take 100)
  | (k, .dict _) => .otherDesc k "" 0 ""

/-- Iterated dotted join: the path obtained from `pfx` by appending each
key of `ks` in turn through `full_key`. -/
def dotJoin (pfx : String) (ks : List String) : String :=
  ks.foldl full_key pfx

/-- The spec's worked example: a mapping holding one nested
2×2 float32 tensor and one integer scalar. -/
def exCheckpoint : Value :=
  .dict [("a", .dict [("b", .tensor [2, 2] "torch.float32" 4 "cpu")]),
         ("c", .other "int" 28 "5" false)]

/-- A mapping nested five levels deep, with one scalar leaf at each level. -/
def exDeep : Value :=
  .dict [("x1", .other "int" 28 "1" false),
         ("d1", .dict
           [("x2", .other "int" 28 "2" false),
            ("d2", .dict
              [("x3", .other "int" 28 "3" false),
               ("d3", .dict
                 [("x4", .other "int" 28 "4" false),
                  ("d4", .dict
                    [("x5", .other "int" 28 "5" false)])])])])]

/-! ### Basic reduction lemmas -/

lemma analyze_nil_of_depth (data : Value) (pfx : String) (md cd : Nat)
    (h : md < cd) : analyze_nested_dict data pfx md cd = [] := by
  unfold analyze_nested_dict
  simp [h]

lemma spec_nil_of_depth (data : Value) (pfx : String) (md cd : Nat)
    (h : md < cd) : specReachableLeaves data pfx md cd = [] := by
  unfold specReachableLeaves
  simp [h]

lemma analyze_dict_eq (entries : List (String × Value)) (pfx : String)
    (md cd : Nat) (h : ¬ md < cd) :
    analyze_nested_dict (.dict entries) pfx md cd
      = analyzeEntries entries pfx md cd := by
  unfold analyze_nested_dict
  simp [h]

lemma spec_dict_eq (entries : List (String × Value)) (pfx : String)
    (md cd : Nat) (h : ¬ md < cd) :
    specReachableLeaves (.dict entries) pfx md cd
      = specLeavesOfEntries entries pfx md cd := by
  unfold specReachableLeaves
  simp [h]

lemma analyze_tensor_eq (shape : List Nat) (dtype : String) (elemSize : Nat)
    (device : String) (pfx : String) (md cd : Nat) :
    analyze_nested_dict (.tensor shape dtype elemSize device) pfx md cd = [] := by
  unfold analyze_nested_dict
  split <;> rfl

lemma analyze_other_eq (typeName : String) (sizeofBytes : Nat) (strRepr : String)
    (isCallable : Bool) (pfx : String) (md cd : Nat) :
    analyze_nested_dict (.other typeName sizeofBytes strRepr isCallable)
      pfx md cd = [] := by
  unfold analyze_nested_dict
  split <;> rfl

lemma spec_tensor_eq (shape : List Nat) (dtype : String) (elemSize : Nat)
    (device : String) (pfx : String) (md cd : Nat) :
    specReachableLeaves (.tensor shape dtype elemSize device) pfx md cd = [] := by
  unfold specReachableLeaves
  split <;> rfl

lemma spec_other_eq (typeName : String) (sizeofBytes : Nat) (strRepr : String)
    (isCallable : Bool) (pfx : String) (md cd : Nat) :
    specReachableLeaves (.other typeName sizeofBytes strRepr isCallable)
      pfx md cd = [] := by
  unfold specReachableLeaves
  split <;> rfl

/-! ### The analyzer output is the reachable-leaf list, one descriptor each -/

lemma entries_eq_map :
    ∀ (entries : List (String × Value)) (pfx : String) (md cd : Nat),
      analyzeEntries entries pfx md cd
        = (specLeavesOfEntries entries pfx md cd).map leafDesc := by
  refine analyzeEntries.induct
    (fun data pfx md cd =>
      analyze_nested_dict data pfx md cd
        = (specReachableLeaves data pfx md cd).map leafDesc)
    (fun entries pfx md cd =>
      analyzeEntries entries pfx md cd
        = (specLeavesOfEntries entries pfx md cd).map leafDesc)
    ?_ ?_ ?_ ?_ ?_
  · intro t pfx md cd h
    rw [analyze_nil_of_depth t pfx md cd h, spec_nil_of_depth t pfx md cd h]
    rfl
  · intro pfx md cd h entries ih
    rw [analyze_dict_eq entries pfx md cd h, spec_dict_eq entries pfx md cd h]
    exact ih
  · intro t pfx md cd h hnd
    cases t with
    | dict entries => exact absurd rfl (fun hh => hnd entries hh)
    | tensor shape dtype elemSize device =>
        rw [analyze_tensor_eq, spec_tensor_eq]
        rfl
    | other typeName sizeofBytes strRepr isCallable =>
        rw [analyze_other_eq, spec_other_eq]
        rfl
  · intro pfx md cd
    rfl
  · intro pfx md cd key value rest ih1 ih2
    cases value with
    | dict es =>
        simp only [analyzeEntries, specLeavesOfEntries, List.map_append]
        rw [ih1, ih2]
    | tensor shape dtype elemSize device =>
        simp only [analyzeEntries, specLeavesOfEntries, List.map_append,
          List.map_cons, List.map_nil, leafDesc, get_tensor_info]
        rw [ih2]
    | other typeName sizeofBytes strRepr isCallable =>
        simp only [analyzeEntries, specLeavesOfEntries, List.map_append,
          List.map_cons, List.map_nil, leafDesc]
        rw [ih2]

lemma analyze_eq_map (data : Value) (pfx : String) (md cd : Nat) :
    analyze_nested_dict data pfx md cd
      = (specReachableLeaves data pfx md cd).map leafDesc := by
  by_cases h : md < cd
  · rw [analyze_nil_of_depth data pfx md cd h, spec_nil_of_depth data pfx md cd h]
    rfl
  · cases data with
    | dict entries =>
        rw [analyze_dict_eq entries pfx md cd h, spec_dict_eq entries pfx md cd h]
        exact entries_eq_map entries pfx md cd
    | tensor shape dtype elemSize device =>
        rw [analyze_tensor_eq, spec_tensor_eq]
        rfl
    | other typeName sizeofBytes strRepr isCallable =>
        rw [analyze_other_eq, spec_other_eq]
        rfl

lemma leafValues_dict (entries : List (String × Value)) :
    leafValues (.dict entries) = leafValuesEntries entries := by
  unfold leafValues
  rfl

lemma dotJoin_cons (pfx k : String) (ks : List String) :
    dotJoin pfx (k :: ks) = dotJoin (full_key pfx k) ks := rfl

lemma dotJoin_single (pfx k : String) :
    dotJoin pfx [k] = full_key pfx k := rfl

/-! ### Shape of every reachable leaf: a true leaf of the input, with a
path of at most `max_depth - current_depth + 1` joined segments -/

lemma spec_entries_shape :
    ∀ (entries : List (String × Value)) (pfx : String) (md cd : Nat)
      (kv : String × Value),
      kv ∈ specLeavesOfEntries entries pfx md cd →
        isLeafB kv.2 = true ∧ kv.2 ∈ leafValuesEntries entries ∧
        ∃ ks : List String,
          ks ≠ [] ∧ ks.length ≤ md - cd + 1 ∧ kv.1 = dotJoin pfx ks := by
  refine specLeavesOfEntries.induct
    (fun data pfx md cd => ∀ kv, kv ∈ specReachableLeaves data pfx md cd →
      isLeafB kv.2 = true ∧ kv.2 ∈ leafValues data ∧
      ∃ ks : List String,
        ks ≠ [] ∧ ks.length ≤ md - cd + 1 ∧ kv.1 = dotJoin pfx ks)
    (fun entries pfx md cd => ∀ kv, kv ∈ specLeavesOfEntries entries pfx md cd →
      isLeafB kv.2 = true ∧ kv.2 ∈ leafValuesEntries entries ∧
      ∃ ks : List String,
        ks ≠ [] ∧ ks.length ≤ md - cd + 1 ∧ kv.1 = dotJoin pfx ks)
    ?_ ?_ ?_ ?_ ?_
  · intro t pfx md cd h kv hkv
    rw [spec_nil_of_depth t pfx md cd h] at hkv
    exact absurd hkv (List.not_mem_nil kv)
  · intro pfx md cd h entries ih kv hkv
    rw [spec_dict_eq entries pfx md cd h] at hkv
    obtain ⟨h1, h2, hks⟩ := ih kv hkv
    exact ⟨h1, by rw [leafValues_dict]; exact h2, hks⟩
  · intro t pfx md cd h hnd kv hkv
    cases t with
    | dict entries => exact absurd rfl (fun hh => hnd entries hh)
    | tensor shape dtype elemSize device =>
        rw [spec_tensor_eq] at hkv
        exact absurd hkv (List.not_mem_nil kv)
    | other typeName sizeofBytes strRepr isCallable =>
        rw [spec_other_eq] at hkv
        exact absurd hkv (List.not_mem_nil kv)
  · intro pfx md cd kv hkv
    simp only [specLeavesOfEntries] at hkv
    exact absurd hkv (List.not_mem_nil kv)
  · intro pfx md cd key value rest ih1 ih2 kv hkv
    cases value with
    | dict es =>
        dsimp only at ih1
        simp only [specLeavesOfEntries, List.mem_append] at hkv
        rcases hkv with hl | hr
        · by_cases hd : md < cd + 1
          · rw [spec_nil_of_depth _ _ _ _ hd] at hl
            exact absurd hl (List.not_mem_nil kv)
          · obtain ⟨h1, h2, ks, hne, hlen, hpath⟩ := ih1 kv hl
            refine ⟨h1, ?_, key :: ks, by simp, ?_, ?_⟩
            · simp only [leafValuesEntries, List.mem_append]
              exact Or.inl h2
            · simp only [List.length_cons]
              omega
            · rw [dotJoin_cons]
              exact hpath
        · obtain ⟨h1, h2, hks⟩ := ih2 kv hr
          refine ⟨h1, ?_, hks⟩
          simp only [leafValuesEntries, List.mem_append]
          exact Or.inr h2
    | tensor shape dtype elemSize device =>
        simp only [specLeavesOfEntries, List.mem_append] at hkv
        rcases hkv with hl | hr
        · obtain rfl := List.mem_singleton.mp hl
          refine ⟨rfl, ?_, [key], by simp, by simp, (dotJoin_single pfx key).symm⟩
          simp only [leafValuesEntries, List.mem_append, leafValues]
          exact Or.inl (List.mem_singleton.mpr rfl)
        · obtain ⟨h1, h2, hks⟩ := ih2 kv hr
          refine ⟨h1, ?_, hks⟩
          simp only [leafValuesEntries, List.mem_append]
          exact Or.inr h2
    | other typeName sizeofBytes strRepr isCallable =>
        simp only [specLeavesOfEntries, List.mem_append] at hkv
        rcases hkv with hl | hr
        · obtain rfl := List.mem_singleton.mp hl
          refine ⟨rfl, ?_, [key], by simp, by simp, (dotJoin_single pfx key).symm⟩
          simp only [leafValuesEntries, List.mem_append, leafValues]
          exact Or.inl (List.mem_singleton.mpr rfl)
        · obtain ⟨h1, h2, hks⟩ := ih2 kv hr
          refine ⟨h1, ?_, hks⟩
          simp only [leafValuesEntries, List.mem_append]
          exact Or.inr h2

lemma spec_value_shape (data : Value) (pfx : String) (md cd : Nat)
    (kv : String × Value) (hkv : kv ∈ specReachableLeaves data pfx md cd) :
    isLeafB kv.2 = true ∧ kv.2 ∈ leafValues data ∧
    ∃ ks : List String,
      ks ≠ [] ∧ ks.length ≤ md - cd + 1 ∧ kv.1 = dotJoin pfx ks := by
  by_cases h : md < cd
  · rw [spec_nil_of_depth data pfx md cd h] at hkv
    exact absurd hkv (List.not_mem_nil kv)
  · cases data with
    | dict entries =>
        rw [spec_dict_eq entries pfx md cd h] at hkv
        obtain ⟨h1, h2, hks⟩ := spec_entries_shape entries pfx md cd kv hkv
        exact ⟨h1, by rw [leafValues_dict]; exact h2, hks⟩
    | tensor shape dtype elemSize device =>
        rw [spec_tensor_eq] at hkv
        exact absurd hkv (List.not_mem_nil kv)
    | other typeName sizeofBytes strRepr isCallable =>
        rw [spec_other_eq] at hkv
        exact absurd hkv (List.not_mem_nil kv)

/-! ### Every leaf entry is collected and emitted -/

lemma entry_mem_spec (pfx : String) (md cd : Nat) (k : String) (v : Value)
    (hv : isLeafB v = true) :
    ∀ entries : List (String × Value), (k, v) ∈ entries →
      (full_key pfx k, v) ∈ specLeavesOfEntries entries pfx md cd := by
  intro entries
  induction entries with
  | nil => intro hm; exact absurd hm (List.not_mem_nil _)
  | cons e rest ih =>
      intro hm
      obtain ⟨k2, v2⟩ := e
      rcases List.mem_cons.mp hm with heq | hrest
      · injection heq with hk hv2
        subst hk
        subst hv2
        cases v with
        | dict es => simp [isLeafB] at hv
        | tensor shape dtype elemSize device =>
            simp only [specLeavesOfEntries]
            exact List.mem_append_left _ (List.mem_singleton.mpr rfl)
        | other typeName sizeofBytes strRepr isCallable =>
            simp only [specLeavesOfEntries]
            exact List.mem_append_left _ (List.mem_singleton.mpr rfl)
      · cases v2 <;> simp only [specLeavesOfEntries] <;>
          exact List.mem_append_right _ (ih hrest)

lemma leaf_emitted (entries : List (String × Value)) (pfx : String)
    (md cd : Nat) (k : String) (v : Value) (h : ¬ md < cd)
    (hv : isLeafB v = true) (hm : (k, v) ∈ entries) :
    leafDesc (full_key pfx k, v) ∈ analyze_nested_dict (.dict entries) pfx md cd := by
  rw [analyze_dict_eq entries pfx md cd h, entries_eq_map]
  exact List.mem_map_of_mem leafDesc (entry_mem_spec pfx md cd k v hv entries hm)

/-! ### Claim theorems -/

/-- C1: every tensor leaf reported by `analyze_nested_dict` carries a byte
size equal exactly to the tensor's element count times its per-element
byte width (`numel * element_size`), with no rounding or overhead term. -/
theorem c1_tensor_leaf_size_bytes_exact
    (data : Value) (pfx k : String) (md cd : Nat) (shape : List Nat)
    (dtype : String) (sz : Nat) (device : String)
    (hmem : Descriptor.tensorDesc k shape dtype sz device
      ∈ analyze_nested_dict data pfx md cd) :
    ∃ elemSize : Nat,
      Value.tensor shape dtype elemSize device ∈ leafValues data ∧
      sz = numel shape * elemSize := by
  rw [analyze_eq_map] at hmem
  obtain ⟨⟨k2, v2⟩, hkv, heq⟩ := List.mem_map.mp hmem
  cases v2 with
  | dict es => simp [leafDesc] at heq
  | tensor sh2 dt2 es2 dev2 =>
      simp only [leafDesc, Descriptor.tensorDesc.injEq] at heq
      obtain ⟨rfl, rfl, rfl, hsz, rfl⟩ := heq
      exact ⟨es2, (spec_value_shape data pfx md cd _ hkv).2.1, hsz.symm⟩
  | other tn3 sz3 s3 c3 => simp [leafDesc] at heq

/-- C1 witness: applied to the worked example, whose 2×2 float32 tensor with
4-byte elements is reported with byte size 16. -/
theorem c1_tensor_leaf_size_bytes_exact_witness :
    ∃ elemSize : Nat,
      Value.tensor [2, 2] "torch.float32" elemSize "cpu" ∈ leafValues exCheckpoint ∧
      16 = numel [2, 2] * elemSize :=
  c1_tensor_leaf_size_bytes_exact exCheckpoint "" "a.b" 3 0 [2, 2]
    "torch.float32" 16 "cpu" (by decide)

/-- C2: a call entered with current depth strictly beyond the limit returns
the empty sequence at once, so a dictionary entry sitting at depth beyond
the limit contributes zero descriptors to its enclosing loop. -/
theorem c2_depth_guard_returns_empty
    (data : Value) (k : String) (es rest : List (String × Value))
    (pfx : String) (md cd : Nat) :
    (md < cd → analyze_nested_dict data pfx md cd = []) ∧
    (md ≤ cd → analyzeEntries ((k, .dict es) :: rest) pfx md cd
        = analyzeEntries rest pfx md cd) := by
  constructor
  · exact fun h => analyze_nil_of_depth data pfx md cd h
  · intro h
    simp only [analyzeEntries]
    rw [analyze_nil_of_depth _ _ _ _ (by omega)]
    exact List.nil_append _

/-- C2 witness: at depth 4 with limit 3 the example yields nothing, and a
dict entry reached at the limit depth 2 with limit 2 drops out. -/
theorem c2_depth_guard_returns_empty_witness :
    (analyze_nested_dict exCheckpoint "" 3 4 = []) ∧
    (analyzeEntries [("d", Value.dict [("x", Value.other "int" 28 "9" false)])]
        "p" 2 2 = analyzeEntries [] "p" 2 2) :=
  ⟨(c2_depth_guard_returns_empty exCheckpoint "d"
      [("x", Value.other "int" 28 "9" false)] [] "" 3 4).1 (by omega),
   (c2_depth_guard_returns_empty exCheckpoint "d"
      [("x", Value.other "int" 28 "9" false)] [] "p" 2 2).2 (by omega)⟩

/-- C3: on a mapping nested five levels deep, analyzed with `max_depth = 3`
and `current_depth = 0`, descriptors appear exactly for the leaves at
nesting depth at most 3 (`x1` … `x4`); the depth-5 leaf `x5` is absent. -/
theorem c3_five_levels_max_depth_three :
    analyze_nested_dict exDeep "" 3 0
      = [.otherDesc "x1" "int" 28 "1",
         .otherDesc "d1.x2" "int" 28 "2",
         .otherDesc "d1.d2.x3" "int" 28 "3",
         .otherDesc "d1.d2.d3.x4" "int" 28 "4"] := by
  decide

/-- C4: a non-tensor, non-dict leaf reached within the depth bound always
yields a descriptor (never silently dropped), and every fallback
descriptor's value preview is the value's string representation truncated
to 100 characters when the value is not invocable, or the literal marker
"callable" when it is — never both. -/
theorem c4_other_leaf_emitted_and_preview
    (entries : List (String × Value)) (data : Value) (pfx k tn : String)
    (sz : Nat) (s : String) (c : Bool) (md cd : Nat) :
    (¬ md < cd → (k, Value.other tn sz s c) ∈ entries →
      Descriptor.otherDesc (full_key pfx k) tn sz
          (if c then "callable" else String.take s 100)
        ∈ analyze_nested_dict (.dict entries) pfx md cd) ∧
    (∀ (k2 tn2 : String) (sz2 : Nat) (pv : String),
      Descriptor.otherDesc k2 tn2 sz2 pv ∈ analyze_nested_dict data pfx md cd →
      ∃ (s2 : String) (c2 : Bool),
        Value.other tn2 sz2 s2 c2 ∈ leafValues data ∧
        pv = (if c2 then "callable" else String.take s2 100)) := by
  constructor
  · intro h hm
    have hle := leaf_emitted entries pfx md cd k (Value.other tn sz s c) h rfl hm
    simpa only [leafDesc] using hle
  · intro k2 tn2 sz2 pv hmem
    rw [analyze_eq_map] at hmem
    obtain ⟨⟨kk, vv⟩, hkv, heq⟩ := List.mem_map.mp hmem
    cases vv with
    | dict es =>
        have hleaf := (spec_value_shape data pfx md cd _ hkv).1
        simp [isLeafB] at hleaf
    | tensor sh3 dt3 es3 dev3 => simp [leafDesc] at heq
    | other tn3 sz3 s3 c3 =>
        simp only [leafDesc, Descriptor.otherDesc.injEq] at heq
        obtain ⟨rfl, rfl, rfl, hpv⟩ := heq
        exact ⟨s3, c3, (spec_value_shape data pfx md cd _ hkv).2.1, hpv.symm⟩

/-- C4 witness: applied to the worked example, in which the scalar leaf
`"c"` (a non-invocable `int` printing as "5") is emitted with preview "5". -/
theorem c4_other_leaf_emitted_and_preview_witness :
    (Descriptor.otherDesc (full_key "" "c") "int" 28
        (if false then "callable" else String.take "5" 100)
      ∈ analyze_nested_dict
          (.dict [("a", .dict [("b", .tensor [2, 2] "torch.float32" 4 "cpu")]),
                  ("c", .other "int" 28 "5" false)]) "" 3 0) ∧
    (∃ (s2 : String) (c2 : Bool),
      Value.other "int" 28 s2 c2 ∈ leafValues exCheckpoint ∧
      "5" = (if c2 then "callable" else String.take s2 100)) :=
  ⟨(c4_other_leaf_emitted_and_preview
      [("a", .dict [("b", .tensor [2, 2] "torch.float32" 4 "cpu")]),
       ("c", .other "int" 28 "5" false)]
      exCheckpoint "" "c" "int" 28 "5" false 3 0).1 (by omega)
      (List.mem_cons_of_mem _ (List.mem_cons_self _ _)),
   (c4_other_leaf_emitted_and_preview
      [("a", .dict [("b", .tensor [2, 2] "torch.float32" 4 "cpu")]),
       ("c", .other "int" 28 "5" false)]
      exCheckpoint "" "c" "int" 28 "5" false 3 0).2 "c" "int" 28 "5" (by decide)⟩

/-- C5: the analyzer returns exactly one descriptor per leaf reachable
within the depth bound — in depth-first order following each mapping's key
iteration order — and no descriptor for an intermediate dictionary node. -/
theorem c5_one_descriptor_per_reachable_leaf
    (data : Value) (pfx : String) (md cd : Nat) :
    (analyze_nested_dict data pfx md cd).map Descriptor.key
      = (specReachableLeaves data pfx md cd).map Prod.fst ∧
    (analyze_nested_dict data pfx md cd).length
      = (specReachableLeaves data pfx md cd).length ∧
    (specReachableLeaves data pfx md cd).all (fun kv => isLeafB kv.2) = true := by
  have hmap := analyze_eq_map data pfx md cd
  refine ⟨?_, ?_, ?_⟩
  · rw [hmap, List.map_map]
    have hk : Descriptor.key ∘ leafDesc = Prod.fst := by
      funext kv
      obtain ⟨k, v⟩ := kv
      cases v <;> rfl
    rw [hk]
  · rw [hmap, List.length_map]
  · rw [List.all_eq_true]
    intro kv hkv
    exact (spec_value_shape data pfx md cd kv hkv).1

/-- C6: with the analysis started at depth 0 under limit `d`, every
descriptor's path is the running path joined with at most `d + 1` further
key segments contributed by dictionary nesting. -/
theorem c6_path_segment_bound
    (d : Nat) (data : Value) (pfx : String) (desc : Descriptor)
    (hmem : desc ∈ analyze_nested_dict data pfx d 0) :
    ∃ ks : List String,
      ks ≠ [] ∧ ks.length ≤ d + 1 ∧ desc.key = dotJoin pfx ks := by
  rw [analyze_eq_map] at hmem
  obtain ⟨⟨k, v⟩, hkv, rfl⟩ := List.mem_map.mp hmem
  obtain ⟨-, -, ks, hne, hlen, hpath⟩ := spec_value_shape data pfx d 0 (k, v) hkv
  refine ⟨ks, hne, by omega, ?_⟩
  have hk : (leafDesc (k, v)).key = k := by cases v <;> rfl
  rw [hk]
  exact hpath

/-- C6 witness: applied to the deep example at limit 3, for the descriptor
of the leaf `x4` whose path has 4 = 3 + 1 segments. -/
theorem c6_path_segment_bound_witness :
    ∃ ks : List String,
      ks ≠ [] ∧ ks.length ≤ 3 + 1 ∧
      (Descriptor.otherDesc "d1.d2.d3.x4" "int" 28 "4").key = dotJoin "" ks :=
  c6_path_segment_bound 3 exDeep ""
    (Descriptor.otherDesc "d1.d2.d3.x4" "int" 28 "4") (by decide)

/-- C7: the full key an entry is emitted or propagated under is
`pfx ++ "." ++ key` when the running path is non-empty and `key` alone when
it is empty — both for the leaf descriptor emitted and for the path prefix
a nested dictionary is recursed with. -/
theorem c7_full_key_join
    (pfx k : String) (es : List (String × Value)) (tn : String)
    (sz : Nat) (s : String) (c : Bool) (md cd : Nat) :
    (pfx ≠ "" → full_key pfx k = pfx ++ "." ++ k) ∧
    (pfx = "" → full_key pfx k = k) ∧
    (¬ md < cd →
      analyze_nested_dict (.dict [(k, Value.other tn sz s c)]) pfx md cd
        = [Descriptor.otherDesc (full_key pfx k) tn sz
            (if c then "callable" else String.take s 100)]) ∧
    (¬ md < cd →
      analyze_nested_dict (.dict [(k, Value.dict es)]) pfx md cd
        = analyze_nested_dict (.dict es) (full_key pfx k) md (cd + 1)) := by
  refine ⟨?_, ?_, ?_, ?_⟩
  · intro h
    unfold full_key
    rw [if_pos h]
  · intro h
    subst h
    simp [full_key]
  · intro h
    rw [analyze_dict_eq _ _ _ _ h]
    simp [analyzeEntries]
  · intro h
    rw [analyze_dict_eq _ _ _ _ h]
    simp [analyzeEntries]

/-- C7 witness: with running path "m" the leaf "w" is keyed "m.w"; with the
empty running path it is keyed "w"; both at the analyzer's output. -/
theorem c7_full_key_join_witness :
    (full_key "m" "w" = "m" ++ "." ++ "w") ∧
    (full_key "" "w" = "w") ∧
    (analyze_nested_dict (.dict [("w", Value.other "int" 28 "7" false)]) "m" 3 0
      = [Descriptor.otherDesc (full_key "m" "w") "int" 28
          (if false then "callable" else String.take "7" 100)]) ∧
    (analyze_nested_dict
        (.dict [("w", Value.dict [("z", Value.other "int" 28 "8" false)])]) "m" 3 0
      = analyze_nested_dict (.dict [("z", Value.other "int" 28 "8" false)])
          (full_key "m" "w") 3 1) :=
  ⟨(c7_full_key_join "m" "w" [] "int" 28 "7" false 3 0).1 (by decide),
   (c7_full_key_join "" "w" [] "int" 28 "7" false 3 0).2.1 rfl,
   (c7_full_key_join "m" "w" [] "int" 28 "7" false 3 0).2.2.1 (by omega),
   (c7_full_key_join "m" "w" [("z", Value.other "int" 28 "8" false)]
      "int" 28 "7" false 3 0).2.2.2 (by omega)⟩

/-- C8: the analyzer is a pure function of its four arguments — embedded as
a total function without any effect — so two calls on the same unchanged
input structure return identical descriptor sequences in order and
content. -/
theorem c8_pure_idempotent
    (data1 data2 : Value) (pfx1 pfx2 : String) (md1 md2 cd1 cd2 : Nat)
    (hdata : data1 = data2) (hpfx : pfx1 = pfx2) (hmd : md1 = md2)
    (hcd : cd1 = cd2) :
    analyze_nested_dict data1 pfx1 md1 cd1
      = analyze_nested_dict data2 pfx2 md2 cd2 := by
  rw [hdata, hpfx, hmd, hcd]

/-- C8 witness: two calls on the unchanged worked example agree. -/
theorem c8_pure_idempotent_witness :
    analyze_nested_dict exCheckpoint "" 3 0
      = analyze_nested_dict exCheckpoint "" 3 0 :=
  c8_pure_idempotent exCheckpoint exCheckpoint "" "" 3 3 0 0 rfl rfl rfl rfl

/-- C9: no leaf makes the traversal fail: an empty dictionary and an empty
dictionary value produce zero descriptors without error, and any value that
is neither a mapping nor a tensor falls through to the fallback branch and
produces a descriptor. -/
theorem c9_no_failure_on_leaves
    (entries : List (String × Value)) (pfx k k2 tn : String)
    (sz : Nat) (s : String) (c : Bool) (md cd : Nat) :
    (analyze_nested_dict (.dict []) pfx md cd = []) ∧
    (analyze_nested_dict (.dict [(k2, Value.dict [])]) pfx md cd = []) ∧
    (¬ md < cd → (k, Value.other tn sz s c) ∈ entries →
      Descriptor.otherDesc (full_key pfx k) tn sz
          (if c then "callable" else String.take s 100)
        ∈ analyze_nested_dict (.dict entries) pfx md cd) := by
  refine ⟨?_, ?_, ?_⟩
  · by_cases h : md < cd
    · exact analyze_nil_of_depth _ _ _ _ h
    · rw [analyze_dict_eq _ _ _ _ h]
      simp [analyzeEntries]
  · by_cases h : md < cd
    · exact analyze_nil_of_depth _ _ _ _ h
    · rw [analyze_dict_eq _ _ _ _ h]
      simp only [analyzeEntries]
      by_cases h2 : md < cd + 1
      · rw [analyze_nil_of_depth _ _ _ _ h2]
        simp [analyzeEntries]
      · rw [analyze_dict_eq _ _ _ _ h2]
        simp [analyzeEntries]
  · intro h hm
    have hle := leaf_emitted entries pfx md cd k (Value.other tn sz s c) h rfl hm
    simpa only [leafDesc] using hle

/-- C9 witness: the empty dict, a dict holding only an empty dict, and a
callable leaf (emitted with the "callable" marker, not an error). -/
theorem c9_no_failure_on_leaves_witness :
    (analyze_nested_dict (.dict []) "" 3 0 = []) ∧
    (analyze_nested_dict (.dict [("e", Value.dict [])]) "" 3 0 = []) ∧
    (Descriptor.otherDesc (full_key "" "f") "function" 136
        (if true then "callable" else String.take "<function main>" 100)
      ∈ analyze_nested_dict
          (.dict [("f", Value.other "function" 136 "<function main>" true)])
          "" 3 0) :=
  ⟨(c9_no_failure_on_leaves [("f", Value.other "function" 136 "<function main>" true)]
      "" "f" "e" "function" 136 "<function main>" true 3 0).1,
   (c9_no_failure_on_leaves [("f", Value.other "function" 136 "<function main>" true)]
      "" "f" "e" "function" 136 "<function main>" true 3 0).2.1,
   (c9_no_failure_on_leaves [("f", Value.other "function" 136 "<function main>" true)]
      "" "f" "e" "function" 136 "<function main>" true 3 0).2.2 (by omega)
      (List.mem_singleton.mpr rfl)⟩

/-- C10: a non-dictionary value passed as the root yields the empty
sequence — no descriptor for a bare tensor or scalar root — although the
same value nested inside a mapping yields its descriptor. -/
theorem c10_non_dict_root_empty
    (shape : List Nat) (dtype : String) (elemSize : Nat) (device : String)
    (tn : String) (szb : Nat) (s : String) (c : Bool)
    (pfx k : String) (md cd : Nat) :
    (analyze_nested_dict (.tensor shape dtype elemSize device) pfx md cd = []) ∧
    (analyze_nested_dict (.other tn szb s c) pfx md cd = []) ∧
    (¬ md < cd →
      analyze_nested_dict
          (.dict [(k, .tensor shape dtype elemSize device)]) pfx md cd
        = [Descriptor.tensorDesc (full_key pfx k) shape dtype
            (numel shape * elemSize) device]) := by
  refine ⟨analyze_tensor_eq shape dtype elemSize device pfx md cd,
          analyze_other_eq tn szb s c pfx md cd, ?_⟩
  intro h
  rw [analyze_dict_eq _ _ _ _ h]
  simp [analyzeEntries, get_tensor_info]

/-- C10 witness: a bare tensor root yields nothing, a bare scalar root
yields nothing, and the same tensor under key "t" yields its descriptor. -/
theorem c10_non_dict_root_empty_witness :
    (analyze_nested_dict (.tensor [2, 2] "torch.float32" 4 "cpu") "" 3 0 = []) ∧
    (analyze_nested_dict (.other "int" 28 "5" false) "" 3 0 = []) ∧
    (analyze_nested_dict
        (.dict [("t", .tensor [2, 2] "torch.float32" 4 "cpu")]) "" 3 0
      = [Descriptor.tensorDesc (full_key "" "t") [2, 2] "torch.float32"
          (numel [2, 2] * 4) "cpu"]) :=
  ⟨(c10_non_dict_root_empty [2, 2] "torch.float32" 4 "cpu" "int" 28 "5" false
      "" "t" 3 0).1,
   (c10_non_dict_root_empty [2, 2] "torch.float32" 4 "cpu" "int" 28 "5" false
      "" "t" 3 0).2.1,
   (c10_non_dict_root_empty [2, 2] "torch.float32" 4 "cpu" "int" 28 "5" false
      "" "t" 3 0).2.2 (by omega)⟩
